import Mathlib

/-!
Shallow embedding of the OrangeDownloader core (Rust) for specification
checking.  Each definition is translated from the repository source:

* `FragmentState`, `FragmentKey`, `Fragment`, `ResourceType`, `JobStatus`
  from `src/core/model.rs`;
* `planLoopF` / `plan_ranges` from `plan_ranges` in `src/core/planner.rs`
  (the Rust `while` loop is embedded with explicit fuel, because the loop
  does not terminate when `chunk_size = 0` and `total > 0`; fuel `total`
  is enough whenever `chunk_size ≥ 1`);
* `probe`, `download_range` (as `drLoop`), `sleep_backoff_ms`,
  `should_retry_status` from `src/plugins/http/driver.rs`;
* `ensure_fragments_for_ranges` from `src/core/store.rs` (the per-item
  fragment table is modelled as the list of that item's fragment records);
* `best_resolver` from `src/plugins/registry.rs` (resolvers are modelled
  by their `can_handle` scores in registration order; Rust
  `Iterator::max_by_key` keeps the LAST element on equal keys, which the
  fold below mirrors);
* `run_job` from `Engine::run_job` in `src/core/engine.rs` (resolution
  outcomes and per-item download outcomes are abstracted as data);
* `withExtensionCs` models `std::path::Path::with_extension` as used at
  `src/core/engine.rs:297` on the file-name component of the target path;
* `engineChunkSize` from `Engine::new` in `src/core/engine.rs`.
-/

/-- FragmentState from `src/core/model.rs`. -/
inductive FragmentState
  | Missing
  | Downloading
  | Done
  | Bad
deriving DecidableEq, Repr

/-- FragmentKey from `src/core/model.rs`. -/
inductive FragmentKey
  | Range (offset len : Nat)
  | Indexed (index : Nat)
deriving DecidableEq, Repr

/-- Fragment from `src/core/model.rs`. -/
structure Fragment where
  key : FragmentKey
  state : FragmentState
  retry : Nat
deriving DecidableEq, Repr

/-- ResourceType exactly as declared in `src/core/model.rs` (lines 54-60):
only the four variants `Http`, `GitHubResolvedHttp`, `BitTorrent`, `Ed2k`
appear there, even though other files of the repository construct and match
`ResourceType::Ftp`, `ResourceType::Sftp` and `ResourceType::Adb`. -/
inductive ResourceType
  | Http
  | GitHubResolvedHttp
  | BitTorrent
  | Ed2k
deriving DecidableEq, Repr, Fintype

/-- JobStatus from `src/core/model.rs`. -/
inductive JobStatus
  | Pending
  | Running
  | Paused
  | Completed
  | Failed
deriving DecidableEq, Repr

/-- The body of the `while offset < total` loop of `plan_ranges`
(`src/core/planner.rs`, lines 12-24), with explicit fuel.  Each iteration
pushes `Range{offset, len}` with `len = min(remaining, chunk_size)` and
advances `offset` by `len`.  `none` means the fuel ran out before the loop
exited (in particular, for `chunk = 0 < total` no amount of fuel suffices,
matching the diverging Rust loop). -/
def planLoopF : Nat → Nat → Nat → Nat → Option (List Fragment)
  | 0, _, offset, total => if offset < total then none else some []
  | fuel + 1, chunk, offset, total =>
      if offset < total then
        match planLoopF fuel chunk (offset + min (total - offset) chunk) total with
        | none => none
        | some rest =>
            some ({ key := FragmentKey.Range offset (min (total - offset) chunk),
                    state := FragmentState.Missing, retry := 0 } :: rest)
      else some []

/-- `plan_ranges` from `src/core/planner.rs`: `total == 0` returns the single
sentinel fragment `Range{0,0}` in state `Missing`; otherwise the loop runs.
Fuel `total` is an upper bound on the iteration count whenever
`chunk_size ≥ 1`, since every iteration advances `offset` by at least 1. -/
def plan_ranges (total chunk_size : Nat) : Option (List Fragment) :=
  if total = 0 then
    some [{ key := FragmentKey.Range 0 0, state := FragmentState.Missing, retry := 0 }]
  else planLoopF total chunk_size 0 total

/-- Extract `(offset, len)` from a fragment, as `Engine::download_item` does
(`src/core/engine.rs`, lines 313-319; the `Indexed` arm maps to `(0, 0)`). -/
def fragRange (f : Fragment) : Nat × Nat :=
  match f.key with
  | FragmentKey.Range o l => (o, l)
  | FragmentKey.Indexed _ => (0, 0)

/-- `covers a b ps` says the `(offset, len)` intervals in `ps` tile `[a, b)`
exactly, contiguously and in order: each interval starts where the previous
one ended, the first starts at `a` and the last ends at `b`. -/
def covers : Nat → Nat → List (Nat × Nat) → Prop
  | a, b, [] => a = b
  | a, b, p :: rest => p.1 = a ∧ covers (a + p.2) b rest

/-- `chunk_size.max(1024 * 1024)` clamp from `Engine::new`
(`src/core/engine.rs`, line 48). -/
def engineChunkSize (chunk_size : Nat) : Nat :=
  max chunk_size (1024 * 1024)

/-- Abstract HTTP response: status code and headers.  Header values are
modelled as strings (the driver only reads values that pass
`HeaderValue::to_str`). -/
structure HttpResp where
  status : Nat
  headers : List (String × String)

/-- ASCII lower-casing of one character (`to_ascii_lowercase`). -/
def asciiLowerChar (c : Char) : Char :=
  if 65 ≤ c.toNat ∧ c.toNat ≤ 90 then Char.ofNat (c.toNat + 32) else c

/-- ASCII lower-casing of a string. -/
def lowerStr (s : String) : String := String.mk (s.data.map asciiLowerChar)

/-- Header lookup.  `reqwest::HeaderMap::get` is keyed case-insensitively
(header names are normalised to lowercase), returning the first value. -/
def headerGet (hs : List (String × String)) (name : String) : Option String :=
  (hs.find? (fun p => lowerStr p.1 == lowerStr name)).map (fun p => p.2)

def listHasPrefix : List Char → List Char → Bool
  | [], _ => true
  | _ :: _, [] => false
  | c :: cs, d :: ds => c == d && listHasPrefix cs ds

def containsSub (pat : List Char) : List Char → Bool
  | [] => listHasPrefix pat []
  | c :: rest => listHasPrefix pat (c :: rest) || containsSub pat rest

/-- `HttpDriver::accept_ranges_hint` (`src/plugins/http/driver.rs`,
lines 62-68): the `Accept-Ranges` header value, lower-cased, contains
`"bytes"`. -/
def acceptRangesHint (r : HttpResp) : Bool :=
  match headerGet r.headers ("accept-ranges") with
  | none => false
  | some v => containsSub ("bytes".data) ((lowerStr v).data)

def u64Max : Nat := 2 ^ 64 - 1

/-- Rust `str::parse::<u64>`: optional leading `+`, then one or more ASCII
digits; overflow past `u64::MAX` is an error. -/
def parseU64 (s : String) : Option Nat :=
  let ds := match s.data with
    | '+' :: rest => rest
    | l => l
  if ds = [] then none
  else if ds.all (fun c => c.isDigit) then
    let v := ds.foldl (fun acc c => acc * 10 + (c.toNat - 48)) 0
    if v ≤ u64Max then some v else none
  else none

/-- `HttpDriver::probe` (`src/plugins/http/driver.rs`, lines 84-113),
as a function of the HEAD response and the `Range: bytes=0-0` test GET
response: `total` is the parsed `Content-Length` of the HEAD response,
the Accept-Ranges hint is computed and discarded (`let _hint = ...`), and
range support holds iff the test GET returned `206` with a
`Content-Range` header. -/
def probe (head test : HttpResp) : Option Nat × Bool :=
  let total := (headerGet head.headers ("content-length")).bind parseU64
  let _hint := acceptRangesHint head
  let supports := test.status == 206 && (headerGet test.headers ("content-range")).isSome
  (total, supports)

/-- Outcome of one request attempt: a transport error from `send()` or a
response with status and body. -/
inductive AttemptOutcome
  | netErr (e : Nat)
  | resp (status : Nat) (body : List Nat)
deriving DecidableEq, Repr

/-- `HttpDriverError` from `src/plugins/http/driver.rs` (lines 11-22),
extended with a `Net` constructor for the transport (`reqwest`) errors the
loop also stores in `last_err`. -/
inductive DriverError
  | RangeNotSupported
  | RangeIgnoredFull (body : List Nat)
  | Status (code : Nat)
  | Net (e : Nat)
deriving DecidableEq, Repr

/-- `StatusCode::is_success`: 2xx. -/
def isSuccessStatus (s : Nat) : Bool := 200 ≤ s && s ≤ 299

/-- `HttpDriver::should_retry_status` (`src/plugins/http/driver.rs`,
lines 48-52): 429, 408 or any 5xx (`is_server_error`). -/
def should_retry_status (s : Nat) : Bool :=
  s == 429 || s == 408 || (500 ≤ s && s ≤ 599)

/-- The error recorded in `last_err` for an attempt the loop retries past. -/
def attemptErr : AttemptOutcome → DriverError
  | .netErr e => .Net e
  | .resp s _ => .Status s

/-- An attempt outcome the loop retries past: a transport error or a
retryable status. -/
def transientAttempt : AttemptOutcome → Bool
  | .netErr _ => true
  | .resp s _ => should_retry_status s

/-- The `for attempt in 0..=ctx.retries` loop of
`HttpDriver::download_range` (`src/plugins/http/driver.rs`, lines
125-171), with the backoff sleeps erased (they do not affect the value).
`remaining` counts the attempts left, `attempt` is the current index and
`last` is `last_err`; the `0` case is the fall-through
`last_err.unwrap_or(Status(REQUEST_TIMEOUT))` after the loop. -/
def drLoop (resp : Nat → AttemptOutcome) :
    Nat → Nat → Option DriverError → Except DriverError (List Nat)
  | 0, _, last => .error (last.getD (.Status 408))
  | remaining + 1, attempt, _last =>
      match resp attempt with
      | .netErr e => drLoop resp remaining (attempt + 1) (some (.Net e))
      | .resp s body =>
          if s = 206 then .ok body
          else if s = 200 then .error (.RangeIgnoredFull body)
          else if s = 416 then .error .RangeNotSupported
          else if isSuccessStatus s then .error .RangeNotSupported
          else if should_retry_status s then
            drLoop resp remaining (attempt + 1) (some (.Status s))
          else .error (.Status s)

/-- `HttpDriver::download_range`, abstracted over the attempt outcomes:
`resp i` is what the `i`-th request attempt produces. -/
def download_range (resp : Nat → AttemptOutcome) (retries : Nat) :
    Except DriverError (List Nat) :=
  drLoop resp (retries + 1) 0 none

def saturatingMulU64 (a b : Nat) : Nat := min (a * b) u64Max

/-- `HttpDriver::sleep_backoff` delay in ms (`src/plugins/http/driver.rs`,
lines 54-60): `base = retry_backoff_ms.max(1)`, `mul = 1u64 << min(attempt,
16)` (no overflow since the shift is at most 16), then
`base.saturating_mul(mul).min(30_000)`. -/
def sleep_backoff_ms (retry_backoff_ms attempt : Nat) : Nat :=
  let base := max retry_backoff_ms 1
  let shift := min attempt 16
  let mul := 2 ^ shift
  min (saturatingMulU64 base mul) 30000

/-- A persisted fragment row (`fragments` table), restricted to one item:
`src/core/store.rs`, `FragmentRecord`. -/
structure FragmentRecordM where
  offset : Nat
  len : Nat
  state : FragmentState
deriving DecidableEq, Repr

def mkMissingRecord (p : Nat × Nat) : FragmentRecordM :=
  { offset := p.1, len := p.2, state := FragmentState.Missing }

/-- `SqliteStore::ensure_fragments_for_ranges` (`src/core/store.rs`, lines
231-262) on the item's fragment-record list: if any record exists
(`COUNT(1) > 0`), return unchanged; otherwise insert every given
`(offset, len)` range as a `Missing` record. -/
def ensure_fragments_for_ranges (existing : List FragmentRecordM)
    (ranges : List (Nat × Nat)) : List FragmentRecordM :=
  if 0 < existing.length then existing
  else existing ++ ranges.map mkMissingRecord

/-- Outcome of resolving one `LinkInput` in `Engine::run_job`
(`src/core/engine.rs`, lines 105-165): no resolver found, resolver error,
or a list of drafts each becoming a `DownloadItem`. -/
inductive ResolutionOutcome (α : Type)
  | noResolver
  | resolveErr
  | resolved (drafts : List α)

/-- Whether a resolution outcome sets `any_failed`. -/
def resolutionFailed {α : Type} : ResolutionOutcome α → Bool
  | .noResolver => true
  | .resolveErr => true
  | .resolved _ => false

/-- The resolution phase of `Engine::run_job`: accumulate items from the
inputs in order, setting `any_failed` on a missing resolver or a resolver
error and continuing with the remaining inputs. -/
def resolvePhase {α : Type} (rs : List (ResolutionOutcome α)) : List α × Bool :=
  rs.foldl
    (fun acc r =>
      match r with
      | ResolutionOutcome.noResolver => (acc.1, true)
      | ResolutionOutcome.resolveErr => (acc.1, true)
      | ResolutionOutcome.resolved ds => (acc.1 ++ ds, acc.2))
    ([], false)

/-- All items produced by the successful resolutions, in order. -/
def itemsOf {α : Type} (rs : List (ResolutionOutcome α)) : List α :=
  rs.foldr
    (fun r acc =>
      match r with
      | ResolutionOutcome.resolved ds => ds ++ acc
      | _ => acc)
    []

/-- `Engine::run_job` (`src/core/engine.rs`, lines 94-198), abstracted over
resolution outcomes and per-item download results (`dl it = true` iff
`download_item` succeeded for `it`): resolve every input, then download
every item, folding failures into `any_failed`, and finish `Failed` iff
`any_failed` else `Completed`.  Returns the final job status and the items
processed. -/
def run_job {α : Type} (rs : List (ResolutionOutcome α)) (dl : α → Bool) :
    JobStatus × List α :=
  let p := resolvePhase rs
  let anyFailed := p.1.foldl (fun f it => f || !dl it) p.2
  (if anyFailed then JobStatus.Failed else JobStatus.Completed, p.1)

/-- The fold inside Rust `Iterator::max_by_key` over `(score, index)` pairs
(`PluginRegistry::best_resolver`, `src/plugins/registry.rs`, lines
124-130).  `max_by_key` keeps the LAST element when keys are equal: the
accumulator is replaced whenever the new key is not smaller. -/
def bestResolverGo : Nat × Nat → Nat → List Nat → Nat × Nat
  | best, _, [] => best
  | best, pos, s :: rest =>
      bestResolverGo (if best.1 > s then best else (s, pos)) (pos + 1) rest

/-- `PluginRegistry::best_resolver`, with resolvers modelled by their
`can_handle` scores in registration order; the result is the index of the
chosen resolver.  `max_by_key` over `(score, resolver)` pairs, then `None`
if the winning score is 0. -/
def best_resolver (scores : List Nat) : Option Nat :=
  match scores with
  | [] => none
  | s :: rest =>
      let r := bestResolverGo (s, 0) 1 rest
      if r.1 = 0 then none else some r.2

/-- Splits a reversed file name at its first `'.'` (i.e. the original
name's last `'.'`): returns `(chars before the dot, chars after)`, both
still reversed, or `none` if there is no dot. -/
def extSplitGo : List Char → Option (List Char × List Char)
  | [] => none
  | c :: rest =>
      if c = '.' then some ([], rest)
      else (extSplitGo rest).map (fun p => (c :: p.1, p.2))

/-- `std::path::Path::with_extension` on a file name (the engine applies it
to the target path at `src/core/engine.rs:297`; only the final path
component is affected).  Rust semantics: the extension is the part after
the last `'.'` of the file name, except that a name starting with `'.'`
and containing no further dot has no extension; `with_extension(ext)`
replaces the extension (or appends `"." + ext` when there is none). -/
def withExtensionCs (name ext : List Char) : List Char :=
  match extSplitGo name.reverse with
  | none => name ++ '.' :: ext
  | some p => if p.2 = [] then name ++ '.' :: ext else p.2.reverse ++ '.' :: ext

/-- The staging path of `Engine::download_item`:
`target_path.with_extension("partial")` (`src/core/engine.rs:297`). -/
def stagingPath (name : String) : String :=
  String.mk (withExtensionCs name.data ("partial".data))

theorem covers_le (ps : List (Nat × Nat)) :
    ∀ a b, covers a b ps → ∀ p ∈ ps, a ≤ p.1 := by
  induction ps with
  | nil => intro a b _ p hp; cases hp
  | cons q rest ih =>
      intro a b hcov p hp
      obtain ⟨hq, hrest⟩ := hcov
      rcases List.mem_cons.mp hp with hp | hp
      · subst hp; omega
      · have := ih (a + q.2) b hrest p hp
        omega

theorem covers_pairwise (ps : List (Nat × Nat)) :
    ∀ a b, covers a b ps → (∀ p ∈ ps, 0 < p.2) →
      ps.Pairwise (fun p q => p.1 + p.2 ≤ q.1 ∧ p.1 < q.1) := by
  induction ps with
  | nil => intro a b _ _; exact List.Pairwise.nil
  | cons q rest ih =>
      intro a b hcov hpos
      obtain ⟨hq, hrest⟩ := hcov
      refine List.Pairwise.cons ?_ (ih (a + q.2) b hrest ?_)
      · intro p hp
        have h1 : a + q.2 ≤ p.1 := covers_le rest (a + q.2) b hrest p hp
        have h2 : 0 < q.2 := hpos q (List.mem_cons_self _ _)
        constructor <;> omega
      · intro p hp; exact hpos p (List.mem_cons_of_mem _ hp)

theorem covers_sum (ps : List (Nat × Nat)) :
    ∀ a b, covers a b ps → a + (ps.map (fun p => p.2)).sum = b := by
  induction ps with
  | nil => intro a b h; simpa [covers] using h
  | cons q rest ih =>
      intro a b hcov
      obtain ⟨_, hrest⟩ := hcov
      have := ih (a + q.2) b hrest
      simp only [List.map_cons, List.sum_cons]
      omega

theorem ceil_div_step (d C : Nat) (hC : 1 ≤ C) (hd : 1 ≤ d) :
    (d + C - 1) / C = (d - 1) / C + 1 := by
  have he : d + C - 1 = (d - 1) + C := by omega
  rw [he, Nat.add_div_right _ (by omega)]

theorem planLoopF_sound :
    ∀ (fuel C offset T : Nat), 1 ≤ C → offset ≤ T → T - offset ≤ fuel →
      ∃ L, planLoopF fuel C offset T = some L ∧
        covers offset T (L.map fragRange) ∧
        (∀ p ∈ L.map fragRange, 0 < p.2 ∧ p.2 ≤ C) ∧
        L.length = (T - offset + C - 1) / C ∧
        (∀ p ∈ (L.map fragRange).dropLast, p.2 = C) ∧
        (∀ f ∈ L, f.state = FragmentState.Missing ∧ f.retry = 0) := by
  intro fuel
  induction fuel with
  | zero =>
      intro C offset T hC hle hfuel
      have heq : offset = T := by omega
      subst heq
      refine ⟨[], ?_, ?_, ?_, ?_, ?_, ?_⟩
      · simp [planLoopF]
      · simp [covers]
      · intro p hp; cases hp
      · simp only [List.length_nil]
        rw [Nat.div_eq_of_lt (show offset - offset + C - 1 < C by omega)]
      · intro p hp; cases hp
      · intro f hf; cases hf
  | succ fuel ih =>
      intro C offset T hC hle hfuel
      by_cases h : offset < T
      · have hlen1 : 1 ≤ min (T - offset) C := by omega
        have h2 : offset + min (T - offset) C ≤ T := by omega
        have h3 : T - (offset + min (T - offset) C) ≤ fuel := by omega
        obtain ⟨L, hL, hcov, hpos, hlenL, hdrop, hstate⟩ :=
          ih C (offset + min (T - offset) C) T hC h2 h3
        refine ⟨{ key := FragmentKey.Range offset (min (T - offset) C),
                  state := FragmentState.Missing, retry := 0 } :: L,
                ?_, ?_, ?_, ?_, ?_, ?_⟩
        · simp [planLoopF, h, hL]
        · exact ⟨rfl, hcov⟩
        · simp only [List.map_cons, List.mem_cons]
          rintro p (hp | hp)
          · subst hp
            simp only [fragRange]
            omega
          · exact hpos p hp
        · simp only [List.length_cons]
          rw [hlenL, ceil_div_step (T - offset) C hC (by omega)]
          by_cases hd : T - offset ≤ C
          · have hmin : min (T - offset) C = T - offset := by omega
            rw [hmin]
            have e1 : T - (offset + (T - offset)) = 0 := by omega
            rw [e1]
            rw [Nat.div_eq_of_lt (show 0 + C - 1 < C by omega),
                Nat.div_eq_of_lt (show T - offset - 1 < C by omega)]
          · have hmin : min (T - offset) C = C := by omega
            rw [hmin]
            have e1 : T - (offset + C) = T - offset - C := by omega
            rw [e1, ceil_div_step (T - offset - C) C hC (by omega)]
            have e2 : T - offset - C - 1 = T - offset - 1 - C := by omega
            have e3 : T - offset - 1 = (T - offset - 1 - C) + C := by omega
            rw [e2]
            conv_rhs => rw [e3]
            rw [Nat.add_div_right _ (by omega)]
        · by_cases hd : T - offset ≤ C
          · have hmin : min (T - offset) C = T - offset := by omega
            have e1 : T - (offset + min (T - offset) C) = 0 := by omega
            rw [e1] at hlenL
            have hz : L.length = 0 := by
              rw [hlenL]; exact Nat.div_eq_of_lt (by omega)
            have hLnil : L = [] := List.length_eq_zero.mp hz
            subst hLnil
            intro p hp
            simp at hp
          · have hmin : min (T - offset) C = C := by omega
            have hL1 : 1 ≤ L.length := by
              rw [hlenL]
              have : C ≤ T - (offset + min (T - offset) C) + C - 1 := by omega
              exact (Nat.one_le_div_iff (by omega)).mpr this
            obtain ⟨x, L2, hxL⟩ : ∃ x L2, L = x :: L2 := by
              cases L with
              | nil => simp at hL1
              | cons x L2 => exact ⟨x, L2, rfl⟩
            subst hxL
            simp only [List.map_cons, List.dropLast_cons₂, List.mem_cons]
            rintro p hp
            rcases hp with hp | hp
            · subst hp
              simp only [fragRange]
              omega
            · exact hdrop p (by simpa using hp)
        · intro f hf
          rcases List.mem_cons.mp hf with hf | hf
          · subst hf; exact ⟨rfl, rfl⟩
          · exact hstate f hf
      · have heq : offset = T := by omega
        subst heq
        refine ⟨[], ?_, ?_, ?_, ?_, ?_, ?_⟩
        · simp [planLoopF, h]
        · simp [covers]
        · intro p hp; cases hp
        · simp only [List.length_nil]
          rw [Nat.div_eq_of_lt (show offset - offset + C - 1 < C by omega)]
        · intro p hp; cases hp
        · intro f hf; cases hf

/-- C1: for every total `T` and chunk size `C ≥ 1`, `plan_ranges T C`
returns fragments whose `Range` intervals are contiguous, non-overlapping,
in strictly increasing offset order and exactly cover `[0, T)`; every
fragment has `0 < len ≤ C` (the last may be shorter than `C`: all
fragments except possibly the last have `len = C`); the number of
fragments is `⌈T/C⌉`; and `plan_ranges 0 C` is exactly the single sentinel
fragment `Range{0,0}` in state `Missing`. -/
theorem plan_ranges_correct (T C : Nat) (hC : 1 ≤ C) :
    ∃ frags, plan_ranges T C = some frags ∧
      (T = 0 → frags =
        [{ key := FragmentKey.Range 0 0, state := FragmentState.Missing, retry := 0 }]) ∧
      (0 < T →
        covers 0 T (frags.map fragRange) ∧
        (∀ p ∈ frags.map fragRange, 0 < p.2 ∧ p.2 ≤ C) ∧
        (∀ p ∈ (frags.map fragRange).dropLast, p.2 = C) ∧
        frags.length = (T + C - 1) / C ∧
        (frags.map fragRange).Pairwise (fun p q => p.1 + p.2 ≤ q.1 ∧ p.1 < q.1) ∧
        (∀ f ∈ frags, f.state = FragmentState.Missing)) := by
  by_cases hT : T = 0
  · subst hT
    refine ⟨[{ key := FragmentKey.Range 0 0, state := FragmentState.Missing, retry := 0 }],
            ?_, ?_, ?_⟩
    · rfl
    · intro _; rfl
    · intro h; exact absurd h (by omega)
  · obtain ⟨L, hL, hcov, hpos, hlen, hdrop, hstate⟩ :=
      planLoopF_sound T C 0 T hC (by omega) (by omega)
    refine ⟨L, ?_, ?_, ?_⟩
    · simp [plan_ranges, hT, hL]
    · intro h; exact absurd h hT
    · intro _
      refine ⟨hcov, hpos, hdrop, ?_, ?_, ?_⟩
      · simpa using hlen
      · exact covers_pairwise _ 0 T hcov (fun p hp => (hpos p hp).1)
      · intro f hf; exact (hstate f hf).1

theorem plan_ranges_correct_witness :
    ∃ frags, plan_ranges 5 2 = some frags ∧
      (5 = 0 → frags =
        [{ key := FragmentKey.Range 0 0, state := FragmentState.Missing, retry := 0 }]) ∧
      (0 < 5 →
        covers 0 5 (frags.map fragRange) ∧
        (∀ p ∈ frags.map fragRange, 0 < p.2 ∧ p.2 ≤ 2) ∧
        (∀ p ∈ (frags.map fragRange).dropLast, p.2 = 2) ∧
        frags.length = (5 + 2 - 1) / 2 ∧
        (frags.map fragRange).Pairwise (fun p q => p.1 + p.2 ≤ q.1 ∧ p.1 < q.1) ∧
        (∀ f ∈ frags, f.state = FragmentState.Missing)) :=
  plan_ranges_correct 5 2 (by decide)

/-- C2: `probe` returns `(total, supports_ranges)` where `total` is the
parsed `Content-Length` of the HEAD response (`none` if absent or
unparsable) and `supports_ranges` holds iff the `Range: bytes=0-0` test
GET returned `206 Partial Content` with a `Content-Range` header; the HEAD
response (in particular any `Accept-Ranges: bytes` header on it) never
influences `supports_ranges`. -/
theorem probe_correct (head test : HttpResp) :
    (probe head test).1 = (headerGet head.headers ("content-length")).bind parseU64 ∧
    ((probe head test).2 = true ↔
      test.status = 206 ∧ (headerGet test.headers ("content-range")).isSome) ∧
    (∀ head2 : HttpResp, (probe head2 test).2 = (probe head test).2) := by
  refine ⟨rfl, ?_, fun _ => rfl⟩
  simp [probe]

/-- C8: the retry backoff delay equals
`min(30000, max(retry_backoff_ms, 1) * 2^min(attempt, 16))`; it never
exceeds 30000 ms and the effective base is at least 1 (the saturating u64
multiplication is absorbed by the 30000 cap). -/
theorem sleep_backoff_spec (b attempt : Nat) (_hu64 : b ≤ u64Max) :
    sleep_backoff_ms b attempt = min 30000 (max b 1 * 2 ^ min attempt 16) ∧
    sleep_backoff_ms b attempt ≤ 30000 ∧ 1 ≤ max b 1 := by
  have h1 : sleep_backoff_ms b attempt = min 30000 (max b 1 * 2 ^ min attempt 16) := by
    simp only [sleep_backoff_ms, saturatingMulU64, u64Max]
    have h2 : (30000 : Nat) ≤ 2 ^ 64 - 1 := by norm_num
    omega
  exact ⟨h1, by rw [h1]; exact Nat.min_le_left _ _, by omega⟩

theorem sleep_backoff_spec_witness :
    sleep_backoff_ms 100 3 = min 30000 (max 100 1 * 2 ^ min 3 16) ∧
    sleep_backoff_ms 100 3 ≤ 30000 ∧ 1 ≤ max 100 1 :=
  sleep_backoff_spec 100 3 (by norm_num [u64Max])

theorem planLoopF_zero_chunk (T : Nat) (hT : 0 < T) :
    ∀ fuel, planLoopF fuel 0 0 T = none := by
  intro fuel
  induction fuel with
  | zero => simp [planLoopF, hT]
  | succ fuel ih => simp [planLoopF, hT, Nat.min_zero, ih]

/-- C10: `plan_ranges T C` terminates for every `T` when `C ≥ 1` (fuel `T`
suffices, because each iteration advances the offset by
`min(remaining, C) ≥ 1`); the precondition is necessary: with `C = 0` and
`T > 0` the loop never finishes for any fuel (the offset never advances);
and `Engine::new` clamps the chunk size to at least 1 MiB, which is well
above the bound 1. -/
theorem plan_ranges_termination (T C c fuel : Nat) :
    (1 ≤ C → (plan_ranges T C).isSome = true) ∧
    (0 < T → planLoopF fuel 0 0 T = none) ∧
    (1024 * 1024 ≤ engineChunkSize c ∧ 1 ≤ engineChunkSize c) := by
  refine ⟨?_, ?_, ?_⟩
  · intro hC
    by_cases hT : T = 0
    · subst hT; simp [plan_ranges]
    · obtain ⟨L, hL, -, -, -, -, -⟩ :=
        planLoopF_sound T C 0 T hC (by omega) (by omega)
      simp [plan_ranges, hT, hL]
  · intro hT
    exact planLoopF_zero_chunk T hT fuel
  · unfold engineChunkSize
    omega

/-- C4: `ensure_fragments_for_ranges` inserts all given ranges as
`Missing`-state records when the item has zero fragment records, changes
nothing otherwise, and is idempotent: after a first call that inserted
records (non-empty `ranges`), a second call with any argument leaves the
persisted set unchanged. -/
theorem ensure_fragments_spec (existing : List FragmentRecordM)
    (ranges ranges2 : List (Nat × Nat)) :
    (existing = [] →
      ensure_fragments_for_ranges existing ranges = ranges.map mkMissingRecord) ∧
    (existing ≠ [] → ensure_fragments_for_ranges existing ranges = existing) ∧
    (∀ r ∈ ensure_fragments_for_ranges [] ranges, r.state = FragmentState.Missing) ∧
    (ranges ≠ [] →
      ensure_fragments_for_ranges (ensure_fragments_for_ranges [] ranges) ranges2 =
        ensure_fragments_for_ranges [] ranges) := by
  refine ⟨?_, ?_, ?_, ?_⟩
  · intro h; subst h; simp [ensure_fragments_for_ranges]
  · intro h
    have hpos : 0 < existing.length := List.length_pos.mpr h
    simp [ensure_fragments_for_ranges, hpos]
  · intro r hr
    simp only [ensure_fragments_for_ranges, List.length_nil, Nat.lt_irrefl, if_false,
      List.nil_append, List.mem_map] at hr
    obtain ⟨p, _, hpr⟩ := hr
    rw [← hpr]
    rfl
  · intro h
    have h1 : ensure_fragments_for_ranges [] ranges = ranges.map mkMissingRecord := by
      simp [ensure_fragments_for_ranges]
    rw [h1]
    have h2 : 0 < (ranges.map mkMissingRecord).length := by
      rw [List.length_map]
      exact List.length_pos.mpr h
    simp only [ensure_fragments_for_ranges]
    rw [if_pos h2]

theorem ensure_fragments_spec_witness :
    (([] : List FragmentRecordM) = [] →
      ensure_fragments_for_ranges [] [(0, 4), (4, 4)] =
        [(0, 4), (4, 4)].map mkMissingRecord) ∧
    (([] : List FragmentRecordM) ≠ [] →
      ensure_fragments_for_ranges [] [(0, 4), (4, 4)] = []) ∧
    (∀ r ∈ ensure_fragments_for_ranges [] [(0, 4), (4, 4)],
      r.state = FragmentState.Missing) ∧
    ([(0, 4), (4, 4)] ≠ ([] : List (Nat × Nat)) →
      ensure_fragments_for_ranges
        (ensure_fragments_for_ranges [] [(0, 4), (4, 4)]) [(9, 9)] =
        ensure_fragments_for_ranges [] [(0, 4), (4, 4)]) :=
  ensure_fragments_spec [] [(0, 4), (4, 4)] [(9, 9)]

theorem resolveFold {α : Type} (rs : List (ResolutionOutcome α)) :
    ∀ (acc : List α × Bool),
      rs.foldl
        (fun acc r =>
          match r with
          | ResolutionOutcome.noResolver => (acc.1, true)
          | ResolutionOutcome.resolveErr => (acc.1, true)
          | ResolutionOutcome.resolved ds => (acc.1 ++ ds, acc.2))
        acc = (acc.1 ++ itemsOf rs, acc.2 || rs.any resolutionFailed) := by
  induction rs with
  | nil => intro acc; simp [itemsOf]
  | cons r rest ih =>
      intro acc
      cases r with
      | noResolver => simp [List.foldl_cons, itemsOf, resolutionFailed, ih]
      | resolveErr => simp [List.foldl_cons, itemsOf, resolutionFailed, ih]
      | resolved ds => simp [List.foldl_cons, itemsOf, resolutionFailed, ih]

theorem foldl_or_any {α : Type} (l : List α) (p : α → Bool) :
    ∀ b, l.foldl (fun f it => f || p it) b = (b || l.any p) := by
  induction l with
  | nil => intro b; simp
  | cons x xs ih =>
      intro b
      rw [List.foldl_cons, ih (b || p x), List.any_cons, Bool.or_assoc]

/-- C5: in `Engine::run_job`, resolution failures and item failures set the
job-level `any_failed` flag without aborting the remaining inputs or
items: the processed items are exactly the drafts of the successful
resolutions, and the final status is `Failed` iff at least one resolution
or one item failed, otherwise `Completed`. -/
theorem run_job_spec {α : Type} (rs : List (ResolutionOutcome α)) (dl : α → Bool) :
    (run_job rs dl).2 = itemsOf rs ∧
    ((run_job rs dl).1 = JobStatus.Failed ↔
      (∃ r ∈ rs, resolutionFailed r = true) ∨ (∃ it ∈ itemsOf rs, dl it = false)) ∧
    ((run_job rs dl).1 = JobStatus.Failed ∨ (run_job rs dl).1 = JobStatus.Completed) := by
  have hphase : resolvePhase rs = (itemsOf rs, rs.any resolutionFailed) := by
    have h := resolveFold rs ([], false)
    simpa [resolvePhase] using h
  have hstat : (run_job rs dl).1 =
      (if (rs.any resolutionFailed || (itemsOf rs).any (fun it => !dl it)) then
        JobStatus.Failed else JobStatus.Completed) := by
    simp only [run_job, hphase, foldl_or_any]
  refine ⟨by simp [run_job, hphase], ?_, ?_⟩
  · rw [hstat]
    constructor
    · intro hF
      by_cases hb : (rs.any resolutionFailed || (itemsOf rs).any (fun it => !dl it)) = true
      · rcases Bool.or_eq_true_iff.mp hb with h | h
        · exact Or.inl (List.any_eq_true.mp h)
        · obtain ⟨it, hit, hp⟩ := List.any_eq_true.mp h
          exact Or.inr ⟨it, hit, by simpa using hp⟩
      · rw [if_neg hb] at hF
        exact JobStatus.noConfusion hF
    · intro hR
      have hb : (rs.any resolutionFailed || (itemsOf rs).any (fun it => !dl it)) = true := by
        rcases hR with ⟨r, hr, hrf⟩ | ⟨it, hit, hd⟩
        · exact Bool.or_eq_true_iff.mpr (Or.inl (List.any_eq_true.mpr ⟨r, hr, hrf⟩))
        · exact Bool.or_eq_true_iff.mpr
            (Or.inr (List.any_eq_true.mpr ⟨it, hit, by simp [hd]⟩))
      rw [if_pos hb]
  · rw [hstat]
    by_cases hb : (rs.any resolutionFailed || (itemsOf rs).any (fun it => !dl it)) = true
    · rw [if_pos hb]; exact Or.inl rfl
    · rw [if_neg hb]; exact Or.inr rfl

/-- C9: the `ResourceType` enum as declared in `src/core/model.rs` has
exactly the four variants `Http`, `GitHubResolvedHttp`, `BitTorrent` and
`Ed2k`; in particular no seven pairwise-distinct values (as the claimed
set `{Http, GitHubResolvedHttp, BitTorrent, Ed2k, Ftp, Sftp, Adb}` would
require) exist, even though `src/plugins/ftp/resolver.rs:67`,
`src/plugins/sftp/resolver.rs:43` and `src/plugins/adb/resolver.rs:51`
construct `ResourceType::Ftp`, `ResourceType::Sftp` and
`ResourceType::Adb`. -/
theorem resource_type_only_four :
    (∀ t : ResourceType, t = ResourceType.Http ∨ t = ResourceType.GitHubResolvedHttp ∨
      t = ResourceType.BitTorrent ∨ t = ResourceType.Ed2k) ∧
    Fintype.card ResourceType = 4 ∧
    ∀ f : Fin 7 → ResourceType, ¬Function.Injective f := by
  have hcard : Fintype.card ResourceType = 4 := by decide
  refine ⟨?_, hcard, ?_⟩
  · intro t; cases t <;> simp
  · intro f hf
    have h7 := Fintype.card_le_of_injective f hf
    rw [Fintype.card_fin, hcard] at h7
    omega

theorem listGetD_mem (l : List Nat) : ∀ m, m < l.length → l.getD m 0 ∈ l := by
  induction l with
  | nil => intro m hm; simp at hm
  | cons x xs ih =>
      intro m hm
      cases m with
      | zero => simp
      | succ m =>
          simp only [List.getD_cons_succ]
          exact List.mem_cons_of_mem _ (ih m (by simpa using hm))

theorem listMem_getD (l : List Nat) : ∀ t, t ∈ l → ∃ m, m < l.length ∧ l.getD m 0 = t := by
  induction l with
  | nil => intro t ht; cases ht
  | cons x xs ih =>
      intro t ht
      rcases List.mem_cons.mp ht with rfl | ht
      · exact ⟨0, by simp, by simp⟩
      · obtain ⟨m, hm, hget⟩ := ih t ht
        exact ⟨m + 1, by simpa using Nat.succ_lt_succ hm, by simpa using hget⟩

theorem bestResolverGo_spec (rest : List Nat) :
    ∀ (best : Nat × Nat) (pos : Nat),
      (bestResolverGo best pos rest = best ∧ ∀ s ∈ rest, s < best.1) ∨
      (∃ k, k < rest.length ∧
        (bestResolverGo best pos rest).1 = rest.getD k 0 ∧
        (bestResolverGo best pos rest).2 = pos + k ∧
        best.1 ≤ (bestResolverGo best pos rest).1 ∧
        (∀ m, m < rest.length → rest.getD m 0 ≤ (bestResolverGo best pos rest).1) ∧
        (∀ m, m < rest.length → k < m → rest.getD m 0 < (bestResolverGo best pos rest).1)) := by
  induction rest with
  | nil =>
      intro best pos
      left
      exact ⟨rfl, by simp⟩
  | cons s rest ih =>
      intro best pos
      by_cases hgt : best.1 > s
      · have hred : bestResolverGo best pos (s :: rest) = bestResolverGo best (pos + 1) rest := by
          simp [bestResolverGo, hgt]
        rcases ih best (pos + 1) with ⟨heq, hall⟩ | ⟨k, hk, h1, h2, h3, h4, h5⟩
        · left
          rw [hred, heq]
          refine ⟨rfl, ?_⟩
          intro t ht
          rcases List.mem_cons.mp ht with rfl | ht
          · exact hgt
          · exact hall t ht
        · right
          refine ⟨k + 1, by simpa using Nat.succ_lt_succ hk, ?_, ?_, ?_, ?_, ?_⟩
          · rw [hred]; simpa [List.getD_cons_succ] using h1
          · rw [hred, h2]; omega
          · rw [hred]; exact h3
          · intro m hm
            cases m with
            | zero =>
                rw [hred]
                simp only [List.getD_cons_zero]
                exact Nat.le_of_lt (Nat.lt_of_lt_of_le hgt h3)
            | succ m =>
                rw [hred]
                simp only [List.getD_cons_succ]
                exact h4 m (by simpa using hm)
          · intro m hm hkm
            cases m with
            | zero => omega
            | succ m =>
                rw [hred]
                simp only [List.getD_cons_succ]
                exact h5 m (by simpa using hm) (by omega)
      · have hred : bestResolverGo best pos (s :: rest) = bestResolverGo (s, pos) (pos + 1) rest := by
          simp [bestResolverGo, hgt]
        rcases ih (s, pos) (pos + 1) with ⟨heq, hall⟩ | ⟨k, hk, h1, h2, h3, h4, h5⟩
        · right
          refine ⟨0, by simp, ?_, ?_, ?_, ?_, ?_⟩
          · rw [hred, heq]; simp
          · rw [hred, heq]; simp
          · rw [hred, heq]; simpa using Nat.le_of_not_lt hgt
          · intro m hm
            cases m with
            | zero => rw [hred, heq]; simp
            | succ m =>
                rw [hred, heq]
                simp only [List.getD_cons_succ]
                have hmem := hall _ (listGetD_mem rest m (by simpa using hm))
                exact Nat.le_of_lt hmem
          · intro m hm h0m
            cases m with
            | zero => omega
            | succ m =>
                rw [hred, heq]
                simp only [List.getD_cons_succ]
                exact hall _ (listGetD_mem rest m (by simpa using hm))
        · right
          refine ⟨k + 1, by simpa using Nat.succ_lt_succ hk, ?_, ?_, ?_, ?_, ?_⟩
          · rw [hred]; simpa [List.getD_cons_succ] using h1
          · rw [hred, h2]; omega
          · rw [hred]
            exact Nat.le_trans (Nat.le_of_not_lt hgt) h3
          · intro m hm
            cases m with
            | zero =>
                rw [hred]
                simp only [List.getD_cons_zero]
                exact h3
            | succ m =>
                rw [hred]
                simp only [List.getD_cons_succ]
                exact h4 m (by simpa using hm)
          · intro m hm hkm
            cases m with
            | zero => omega
            | succ m =>
                rw [hred]
                simp only [List.getD_cons_succ]
                exact h5 m (by simpa using hm) (by omega)

/-- C6 counterexample: with `can_handle` scores `[0, 60, 90, 90]` in
registration order, the code returns index 3 — the LAST resolver that
scored 90 — because Rust `Iterator::max_by_key` keeps the last maximal
element on ties; the claim says the first 90-scorer (index 2) wins. -/
theorem best_resolver_counterexample :
    best_resolver [0, 60, 90, 90] = some 3 ∧ (3 : Nat) ≠ 2 := by
  constructor
  · rfl
  · decide

/-- C6 (amended): `best_resolver` returns `none` iff every registered
resolver scores 0; otherwise it returns a resolver of maximal positive
score, breaking ties in favour of the LAST-registered maximal scorer
(every later-registered resolver scores strictly less). -/
theorem best_resolver_spec (scores : List Nat) :
    (best_resolver scores = none ↔ ∀ s ∈ scores, s = 0) ∧
    (∀ i, best_resolver scores = some i →
      i < scores.length ∧ 0 < scores.getD i 0 ∧
      (∀ j, j < scores.length → scores.getD j 0 ≤ scores.getD i 0) ∧
      (∀ j, j < scores.length → i < j → scores.getD j 0 < scores.getD i 0)) := by
  cases scores with
  | nil =>
      constructor
      · simp [best_resolver]
      · intro i h; simp [best_resolver] at h
  | cons s rest =>
      have hspec := bestResolverGo_spec rest (s, 0) 1
      constructor
      · constructor
        · intro hnone
          have hz : (bestResolverGo (s, 0) 1 rest).1 = 0 := by
            by_contra hnz
            simp [best_resolver, hnz] at hnone
          intro t ht
          rcases List.mem_cons.mp ht with rfl | ht
          · rcases hspec with ⟨heq, -⟩ | ⟨k, -, -, -, h3, -, -⟩
            · rw [heq] at hz; exact hz
            · omega
          · obtain ⟨m, hm, hget⟩ := listMem_getD rest t ht
            rcases hspec with ⟨heq, hall⟩ | ⟨k, -, -, -, -, h4, -⟩
            · have hlt := hall t ht
              rw [heq] at hz
              simp at hz
              omega
            · have := h4 m hm
              omega
        · intro hzero
          have hz : (bestResolverGo (s, 0) 1 rest).1 = 0 := by
            rcases hspec with ⟨heq, -⟩ | ⟨k, hk, h1, -, -, -, -⟩
            · rw [heq]
              exact hzero s (List.mem_cons_self _ _)
            · rw [h1]
              exact hzero _ (List.mem_cons_of_mem _ (listGetD_mem rest k hk))
          simp [best_resolver, hz]
      · intro i hi
        have hnz : (bestResolverGo (s, 0) 1 rest).1 ≠ 0 := by
          by_contra hz
          simp [best_resolver, hz] at hi
        have hival : i = (bestResolverGo (s, 0) 1 rest).2 := by
          simp [best_resolver, hnz] at hi
          omega
        rcases hspec with ⟨heq, hall⟩ | ⟨k, hk, h1, h2, h3, h4, h5⟩
        · rw [heq] at hival hnz
          subst hival
          refine ⟨by simp, by simpa using Nat.pos_of_ne_zero hnz, ?_, ?_⟩
          · intro j hj
            cases j with
            | zero => simp
            | succ j =>
                simp only [List.getD_cons_succ, List.getD_cons_zero]
                exact Nat.le_of_lt (hall _ (listGetD_mem rest j (by simpa using hj)))
          · intro j hj hij
            cases j with
            | zero => omega
            | succ j =>
                simp only [List.getD_cons_succ, List.getD_cons_zero]
                exact hall _ (listGetD_mem rest j (by simpa using hj))
        · rw [h2] at hival
          subst hival
          have hgi : (s :: rest).getD (1 + k) 0 = rest.getD k 0 := by
            have e : 1 + k = k + 1 := by omega
            rw [e, List.getD_cons_succ]
          refine ⟨by simp; omega, ?_, ?_, ?_⟩
          · rw [hgi, ← h1]
            exact Nat.pos_of_ne_zero hnz
          · intro j hj
            rw [hgi, ← h1]
            cases j with
            | zero => simpa using h3
            | succ j =>
                simp only [List.getD_cons_succ]
                exact h4 j (by simpa using hj)
          · intro j hj hij
            rw [hgi, ← h1]
            cases j with
            | zero => omega
            | succ j =>
                simp only [List.getD_cons_succ]
                exact h5 j (by simpa using hj) (by omega)

theorem best_resolver_spec_witness :
    (best_resolver [0, 60, 90, 90] = none ↔ ∀ s ∈ [0, 60, 90, 90], s = 0) ∧
    (∀ i, best_resolver [0, 60, 90, 90] = some i →
      i < [0, 60, 90, 90].length ∧ 0 < [0, 60, 90, 90].getD i 0 ∧
      (∀ j, j < [0, 60, 90, 90].length →
        [0, 60, 90, 90].getD j 0 ≤ [0, 60, 90, 90].getD i 0) ∧
      (∀ j, j < [0, 60, 90, 90].length → i < j →
        [0, 60, 90, 90].getD j 0 < [0, 60, 90, 90].getD i 0)) :=
  best_resolver_spec [0, 60, 90, 90]

theorem drLoop_congr (resp resp2 : Nat → AttemptOutcome) :
    ∀ r attempt last, (∀ j, attempt ≤ j → j < attempt + r → resp2 j = resp j) →
      drLoop resp2 r attempt last = drLoop resp r attempt last := by
  intro r
  induction r with
  | zero => intro attempt last _; rfl
  | succ r ih =>
      intro attempt last hagree
      have h0 : resp2 attempt = resp attempt :=
        hagree attempt (Nat.le_refl _) (by omega)
      cases hre : resp attempt with
      | netErr e =>
          simp only [drLoop, h0, hre]
          exact ih (attempt + 1) _ (fun j hj1 hj2 => hagree j (by omega) (by omega))
      | resp s body =>
          simp only [drLoop, h0, hre]
          split_ifs <;>
            first
              | rfl
              | exact ih (attempt + 1) _ (fun j hj1 hj2 => hagree j (by omega) (by omega))

theorem drLoop_skip (resp : Nat → AttemptOutcome) :
    ∀ r attempt last, transientAttempt (resp attempt) = true →
      drLoop resp (r + 1) attempt last =
        drLoop resp r (attempt + 1) (some (attemptErr (resp attempt))) := by
  intro r attempt last htr
  cases hre : resp attempt with
  | netErr e => simp [drLoop, hre, attemptErr]
  | resp s body =>
      rw [hre] at htr
      have hs : should_retry_status s = true := by simpa [transientAttempt] using htr
      have hsplit : (s = 429 ∨ s = 408) ∨ (500 ≤ s ∧ s ≤ 599) := by
        simpa [should_retry_status, Bool.or_eq_true, beq_iff_eq, Bool.and_eq_true,
          decide_eq_true_eq] using hs
      have hn206 : s ≠ 206 := by omega
      have hn200 : s ≠ 200 := by omega
      have hn416 : s ≠ 416 := by omega
      have hnsucc : isSuccessStatus s = false := by
        simp only [isSuccessStatus, Bool.and_eq_false_iff, decide_eq_false_iff_not]
        omega
      simp [drLoop, hre, hn206, hn200, hn416, hnsucc, hs, attemptErr]

theorem drLoop_exhaust (resp : Nat → AttemptOutcome) :
    ∀ r attempt last, 1 ≤ r →
      (∀ j, j < r → transientAttempt (resp (attempt + j)) = true) →
      drLoop resp r attempt last = .error (attemptErr (resp (attempt + r - 1))) := by
  intro r
  induction r with
  | zero => intro attempt last h _; omega
  | succ r ih =>
      intro attempt last _ htr
      have h0 : transientAttempt (resp attempt) = true := by
        simpa using htr 0 (by omega)
      rw [drLoop_skip resp r attempt last h0]
      cases Nat.eq_zero_or_pos r with
      | inl hz =>
          subst hz
          have e : attempt + 1 - 1 = attempt := by omega
          rw [e]
          simp [drLoop]
      | inr hpos =>
          have hstep := ih (attempt + 1) (some (attemptErr (resp attempt))) hpos
            (fun j hj => by
              have h := htr (j + 1) (by omega)
              have e : attempt + (j + 1) = attempt + 1 + j := by omega
              rw [e] at h
              exact h)
          rw [hstep]
          have e : attempt + 1 + r - 1 = attempt + (r + 1) - 1 := by omega
          rw [e]

theorem drLoop_skipMany (resp : Nat → AttemptOutcome) :
    ∀ k r attempt last, k ≤ r →
      (∀ j, j < k → transientAttempt (resp (attempt + j)) = true) →
      ∃ last2 : Option DriverError,
        drLoop resp r attempt last = drLoop resp (r - k) (attempt + k) last2 := by
  intro k
  induction k with
  | zero => intro r attempt last _ _; exact ⟨last, by simp⟩
  | succ k ih =>
      intro r attempt last hkr htr
      obtain ⟨r2, rfl⟩ : ∃ r2, r = r2 + 1 := ⟨r - 1, by omega⟩
      have h0 : transientAttempt (resp attempt) = true := by
        simpa using htr 0 (by omega)
      rw [drLoop_skip resp r2 attempt last h0]
      obtain ⟨last2, hl⟩ := ih r2 (attempt + 1) (some (attemptErr (resp attempt)))
        (by omega)
        (fun j hj => by
          have h := htr (j + 1) (by omega)
          have e : attempt + (j + 1) = attempt + 1 + j := by omega
          rw [e] at h
          exact h)
      refine ⟨last2, ?_⟩
      rw [hl]
      have e1 : r2 - k = r2 + 1 - (k + 1) := by omega
      have e2 : attempt + 1 + k = attempt + (k + 1) := by omega
      rw [e1, e2]

/-- C3: `download_range` consults at most `retries + 1` attempts; at the
first attempt that is not transient (transient = transport error, 429, 408
or 5xx, which are retried) the result is determined by the status: 206
returns the body, 200 fails with `RangeIgnoredFull(body)`, 416 fails with
`RangeNotSupported`, any other 2xx fails with `RangeNotSupported`, and any
other status fails immediately with `Status(code)`; when every attempt in
the budget is transient, it fails with the last attempt's error. -/
theorem download_range_spec (retries : Nat) (resp : Nat → AttemptOutcome) :
    (∀ resp2 : Nat → AttemptOutcome, (∀ i, i < retries + 1 → resp2 i = resp i) →
      download_range resp2 retries = download_range resp retries) ∧
    (∀ k, k ≤ retries → (∀ j, j < k → transientAttempt (resp j) = true) →
      (∀ b, resp k = AttemptOutcome.resp 206 b →
        download_range resp retries = Except.ok b) ∧
      (∀ b, resp k = AttemptOutcome.resp 200 b →
        download_range resp retries = Except.error (DriverError.RangeIgnoredFull b)) ∧
      (∀ b, resp k = AttemptOutcome.resp 416 b →
        download_range resp retries = Except.error DriverError.RangeNotSupported) ∧
      (∀ s b, resp k = AttemptOutcome.resp s b → 200 ≤ s → s ≤ 299 → s ≠ 200 → s ≠ 206 →
        download_range resp retries = Except.error DriverError.RangeNotSupported) ∧
      (∀ s b, resp k = AttemptOutcome.resp s b → ¬(200 ≤ s ∧ s ≤ 299) → s ≠ 416 →
        should_retry_status s = false →
        download_range resp retries = Except.error (DriverError.Status s))) ∧
    ((∀ j, j ≤ retries → transientAttempt (resp j) = true) →
      download_range resp retries = Except.error (attemptErr (resp retries))) := by
  refine ⟨?_, ?_, ?_⟩
  · intro resp2 hag
    unfold download_range
    exact drLoop_congr resp resp2 (retries + 1) 0 none
      (fun j hj1 hj2 => hag j (by omega))
  · intro k hk htr
    obtain ⟨last2, hskip⟩ := drLoop_skipMany resp k (retries + 1) 0 none (by omega)
      (fun j hj => by simpa using htr j hj)
    have hrw : download_range resp retries = drLoop resp (retries - k + 1) k last2 := by
      unfold download_range
      rw [hskip]
      have e1 : retries + 1 - k = retries - k + 1 := by omega
      have e2 : (0 : Nat) + k = k := by omega
      rw [e1, e2]
    refine ⟨?_, ?_, ?_, ?_, ?_⟩
    · intro b hb
      rw [hrw]
      simp [drLoop, hb]
    · intro b hb
      rw [hrw]
      simp [drLoop, hb]
    · intro b hb
      rw [hrw]
      simp [drLoop, hb]
    · intro s b hb hs1 hs2 hs3 hs4
      rw [hrw]
      have hsucc : isSuccessStatus s = true := by
        simp only [isSuccessStatus, Bool.and_eq_true, decide_eq_true_eq]
        omega
      have hn416 : s ≠ 416 := by omega
      simp [drLoop, hb, hs3, hs4, hn416, hsucc]
    · intro s b hb hs1 hs2 hs3
      rw [hrw]
      have hsucc : isSuccessStatus s = false := by
        simp only [isSuccessStatus, Bool.and_eq_false_iff, decide_eq_false_iff_not]
        omega
      have hn206 : s ≠ 206 := by omega
      have hn200 : s ≠ 200 := by omega
      simp [drLoop, hb, hn206, hn200, hs2, hsucc, hs3]
  · intro hall
    unfold download_range
    rw [drLoop_exhaust resp (retries + 1) 0 none (by omega)
      (fun j hj => by simpa using hall j (by omega))]
    have e : (0 : Nat) + (retries + 1) - 1 = retries := by omega
    rw [e]

theorem extSplitGo_none (l : List Char) (hl : '.' ∉ l) : extSplitGo l = none := by
  induction l with
  | nil => rfl
  | cons c cs ih =>
      have hc : c ≠ '.' := fun h => hl (h ▸ List.mem_cons_self _ _)
      have hcs : '.' ∉ cs := fun h => hl (List.mem_cons_of_mem _ h)
      simp [extSplitGo, hc, ih hcs]

theorem extSplitGo_append (l : List Char) :
    ∀ r, '.' ∉ l → extSplitGo (l ++ '.' :: r) = some (l, r) := by
  induction l with
  | nil => intro r _; simp [extSplitGo]
  | cons c cs ih =>
      intro r hl
      have hc : c ≠ '.' := fun h => hl (h ▸ List.mem_cons_self _ _)
      have hcs : '.' ∉ cs := fun h => hl (List.mem_cons_of_mem _ h)
      simp [extSplitGo, hc, ih r hcs]

/-- C7 counterexample: the code stages `file.bin` at `file.partial` (the
extension is REPLACED by `with_extension("partial")`), not at
`file.bin.partial` as `target_path + ".partial"` would give. -/
theorem staging_path_counterexample :
    stagingPath ("file.bin") = "file.partial" ∧
    ("file.partial" : String) ≠ "file.bin" ++ ".partial" := by
  constructor
  · rfl
  · decide

/-- C7 (amended): the staging path is the target path with its final
extension replaced by `partial` — a name of the form `stem.ext` (non-empty
`stem`, dot-free `ext`) stages at `stem.partial`, and a dot-free name
stages with `.partial` appended — rather than the unconditional
`target_path + ".partial"` concatenation; on success the partial file is
promoted to the target path by rename. -/
theorem staging_path_spec (stem ext : List Char)
    (h1 : stem ≠ []) (h2 : '.' ∉ ext) :
    withExtensionCs (stem ++ '.' :: ext) ("partial".data) =
      stem ++ '.' :: ("partial".data) ∧
    (∀ name : List Char, '.' ∉ name →
      withExtensionCs name ("partial".data) = name ++ '.' :: ("partial".data)) := by
  constructor
  · unfold withExtensionCs
    have hrev : (stem ++ '.' :: ext).reverse = ext.reverse ++ '.' :: stem.reverse := by
      simp
    rw [hrev, extSplitGo_append (ext.reverse) (stem.reverse) (by simpa using h2)]
    have hne : stem.reverse ≠ [] := by simpa using h1
    simp [hne]
  · intro name hname
    unfold withExtensionCs
    rw [extSplitGo_none name.reverse (by simpa using hname)]

theorem staging_path_spec_witness :
    withExtensionCs (("file".data) ++ '.' :: ("bin".data)) ("partial".data) =
      ("file".data) ++ '.' :: ("partial".data) ∧
    (∀ name : List Char, '.' ∉ name →
      withExtensionCs name ("partial".data) = name ++ '.' :: ("partial".data)) :=
  staging_path_spec ("file".data) ("bin".data) (by decide) (by decide)
